import Mathlib

/-!
Verification of the change-detection engine of the gdrive-tracker repository
(`DiffTracker`): snapshot diffing (`detectChanges`), heuristic rename
correlation (`findPossibleRename`, `calculateNameSimilarity`), removal
suppression (`wasRenamed`) and modification classification
(`getModificationDetails`, `getRevisionDetails`).

Modelling conventions, all taken from the JavaScript source:
* JS numbers that arise here (similarity scores) are exact rationals; the
  score `sum / max(len1, len2)` with a zero denominator is JS `NaN` and is
  modelled as `none : Option ℚ`; every `>` comparison against `NaN` is false
  (`simGt none t = false`), exactly as in JS.
* `jsdiff`'s character diff (`diff.diffChars`) produces a minimal
  insert/delete edit script (Myers), so the number of characters it reports
  as unchanged is the length of a longest common subsequence of the two
  strings; `lcsLength` computes that number (with a structural fuel argument
  so that it evaluates inside the kernel; the fuel `|l1| + |l2|` always
  suffices since every recursive call shrinks the total length).
* A JS `Map` built from `[item.id, item]` pairs is modelled as an
  association list with JS insertion semantics (`mapFromItems`): first
  occurrence fixes the position, a later duplicate key overwrites the value.
  Iterating the map is iterating that list; `map.get` / `map.has` are
  `mapGet` / `Option.isSome`.
* `item.parents?.[0]` is `Item.parents.head?`; a missing `size` field is
  `none`; missing `revisions` in a revision listing is `none`.
* External calls (`revisions.list`) either throw or return data; they are a
  parameter `rf : String → Except String (Option (List Revision))` of the
  functions that perform them.  `getRevisionDetails` catches its own errors
  and returns JS `null` (modelled `none`), hence never throws.
* The source also builds `currentNameMap` / `lastNameMap` keyed by
  `parent-name`; those maps are never read afterwards and have no effect on
  the result, so they are not part of the model.
-/

/-! ### Exact rationals that evaluate in the kernel

`Rat` division in Lean normalises through `Nat.gcd`, which is defined by
well-founded recursion and does not reduce inside the kernel, so `decide`
cannot evaluate `(a : ℚ) / b`.  `ratOfFrac n d` builds the very same
rational `n / d` in lowest terms using a structural (fuel-based) gcd;
`ratOfFrac_eq` certifies the value. -/

def fgcd : Nat → Nat → Nat → Nat
  | _, 0, y => y
  | 0, _ + 1, y => y
  | fuel + 1, x + 1, y => fgcd fuel (y % (x + 1)) (x + 1)

theorem fgcd_eq : ∀ (fuel x y : Nat), x ≤ fuel → fgcd fuel x y = Nat.gcd x y := by
  intro fuel
  induction fuel with
  | zero =>
    intro x y hx
    interval_cases x
    simp [fgcd]
  | succ n ih =>
    intro x y hx
    cases x with
    | zero => simp [fgcd]
    | succ m =>
      rw [fgcd, ih (y % (m + 1)) (m + 1)
        (Nat.le_of_lt_succ (Nat.lt_of_lt_of_le (Nat.mod_lt y (Nat.succ_pos m)) hx))]
      exact (Nat.gcd_rec (m + 1) y).symm

def myGcd (x y : Nat) : Nat := fgcd x x y

theorem myGcd_eq (x y : Nat) : myGcd x y = Nat.gcd x y := fgcd_eq x x y le_rfl

def ratOfFrac (n d : Nat) : ℚ :=
  if hd : d = 0 then 0
  else
    Rat.mk' ((n / myGcd n d : Nat) : Int) (d / myGcd n d)
      (by
        have hg : 0 < Nat.gcd n d := Nat.pos_of_ne_zero (Nat.gcd_ne_zero_right hd)
        have hle : Nat.gcd n d ≤ d := Nat.le_of_dvd (Nat.pos_of_ne_zero hd) (Nat.gcd_dvd_right n d)
        have : 0 < d / Nat.gcd n d := Nat.div_pos hle hg
        rw [myGcd_eq]
        omega)
      (by
        rw [myGcd_eq, Int.natAbs_ofNat]
        exact Nat.coprime_div_gcd_div_gcd
          (Nat.pos_of_ne_zero (Nat.gcd_ne_zero_right hd)))

/-! ### Data model (§3 of the spec, fields as in the source) -/

/-- One revision record, fields requested by `revisions.list`
(`revisions(id,modifiedTime,lastModifyingUser)`). -/
structure Revision where
  id : String
  modifiedTime : String
  lastModifyingUser : String
deriving DecidableEq

/-- Result object of `getRevisionDetails` on success:
`{ lastRevision, revisionCount }`. -/
structure RevisionInfo where
  lastRevision : Option Revision
  revisionCount : Nat
deriving DecidableEq

/-- JS objects distinguish an absent field from a field holding `null`.
`details.revisionInfo` can be absent (never assigned) or present with a
value that is itself `null` (= `present none`). -/
inductive RevField where
  | absent
  | present (value : Option RevisionInfo)
deriving DecidableEq

/-- The details structure built by `getModificationDetails`. -/
structure ModDetails where
  previousModifiedTime : String
  newModifiedTime : String
  previousSize : Int
  newSize : Int
  sizeDelta : Int
  revisionInfo : RevField
deriving DecidableEq

/-- One file or folder of a snapshot, with the fields `detectChanges`
reads: `id, name, mimeType, modifiedTime, size, parents`.  `size` is
optional (folders); `parents` is the (possibly empty) parent list, of which
the source only ever reads index 0. -/
structure Item where
  id : String
  name : String
  mimeType : String
  modifiedTime : String
  size : Option Int
  parents : List String
deriving DecidableEq

/-- Return value of `findPossibleRename`: `{ name, similarity }`. -/
structure RenameInfo where
  name : String
  similarity : Option ℚ
deriving DecidableEq

/-- A classified change, one variant per `type` with its payload:
`{type, item, ...}`. -/
inductive Change where
  | added (item : Item)
  | removed (item : Item)
  | modified (item : Item) (modificationDetails : ModDetails)
  | moved (item : Item) (oldParentId newParentId : Option String)
  | renamed (item : Item) (oldName : String) (similarity : Option ℚ)
deriving DecidableEq

/-- The subject `item` carried by a change (the current version, or the
last-known version for `removed`). -/
def changeItem : Change → Item
  | .added item => item
  | .removed item => item
  | .modified item _ => item
  | .moved item _ _ => item
  | .renamed item _ _ => item

/-! ### Name-similarity scorer (`calculateNameSimilarity`) -/

/-- `name.replace(/\.[^/.]+$/, "")`: drop a final `.` followed by one or
more characters that are neither `.` nor `/`, when the name ends that way. -/
def stripExt (name : List Char) : List Char :=
  let rev := name.reverse
  let ext := rev.takeWhile (fun c => decide (c ≠ '.' ∧ c ≠ '/'))
  let rest := rev.dropWhile (fun c => decide (c ≠ '.' ∧ c ≠ '/'))
  match rest with
  | '.' :: stem => if ext = [] then name else stem.reverse
  | _ => name

/-- `toLowerCase`, character-wise. -/
def lowerList (l : List Char) : List Char := l.map Char.toLower

/-- Length of a longest common subsequence, with structural fuel. -/
def lcsF : Nat → List Char → List Char → Nat
  | 0, _, _ => 0
  | _ + 1, [], _ => 0
  | _ + 1, _ :: _, [] => 0
  | fuel + 1, a :: as, b :: bs =>
    if a = b then lcsF fuel as bs + 1
    else max (lcsF fuel as (b :: bs)) (lcsF fuel (a :: as) bs)

/-- Number of characters `diff.diffChars(l1, l2)` reports as unchanged:
the length of a longest common subsequence of `l1` and `l2`. -/
def lcsLength (l1 l2 : List Char) : Nat := lcsF (l1.length + l2.length) l1 l2

/-- `calculateNameSimilarity(name1, name2)`: strip extensions, lower-case,
count characters the character diff keeps, divide by the longer stripped
length.  When both stripped names are empty the JS code divides `0 / 0`,
producing `NaN`, modelled as `none`. -/
def calculateNameSimilarity (name1 name2 : String) : Option ℚ :=
  let base1 := stripExt name1.data
  let base2 := stripExt name2.data
  let den := max base1.length base2.length
  if den = 0 then none
  else some (ratOfFrac (lcsLength (lowerList base1) (lowerList base2)) den)

/-- The JS comparison `similarity > threshold`; any comparison with `NaN`
(here `none`) is false. -/
def simGt (s : Option ℚ) (t : ℚ) : Bool :=
  match s with
  | none => false
  | some q => decide (t < q)

/-- The fixed rename threshold `0.8` of `findPossibleRename`
(`renameThreshold_eq` certifies the value). -/
def renameThreshold : ℚ := ratOfFrac 8 10

/-! ### `String.prototype.includes` -/

def startsChars : List Char → List Char → Bool
  | [], _ => true
  | _ :: _, [] => false
  | a :: as, b :: bs => if a = b then startsChars as bs else false

def hasSubstr (sub : List Char) : List Char → Bool
  | [] => startsChars sub []
  | c :: rest => startsChars sub (c :: rest) || hasSubstr sub rest

/-- `s.includes(sub)`. -/
def jsIncludes (s sub : String) : Bool := hasSubstr sub.data s.data

/-! ### Modification classifier -/

/-- `getRevisionDetails(fileId)`: lists revisions; on success returns
`{ lastRevision: revisions?.slice(-1)[0] || null, revisionCount:
revisions?.length || 0 }`; any error is caught, logged and turned into
`null` (`none`) — this function never throws. -/
def getRevisionDetails (rf : String → Except String (Option (List Revision)))
    (fileId : String) : Option RevisionInfo :=
  match rf fileId with
  | .ok revs? =>
    some { lastRevision := (revs?.getD []).getLast?, revisionCount := (revs?.getD []).length }
  | .error _ => none

/-- `getModificationDetails(current, previous)`: time/size fields with
`|| 0` defaulting for missing sizes; for a `mimeType` containing
`"document"` the revision info fetched by `getRevisionDetails` is assigned
to `details.revisionInfo` (note: since `getRevisionDetails` never throws,
the surrounding `try`/`catch` never fires and the field is always assigned
on this path — on failure it holds `null`). -/
def getModificationDetails (rf : String → Except String (Option (List Revision)))
    (current previous : Item) : ModDetails :=
  let details : ModDetails :=
    { previousModifiedTime := previous.modifiedTime
      newModifiedTime := current.modifiedTime
      previousSize := previous.size.getD 0
      newSize := current.size.getD 0
      sizeDelta := current.size.getD 0 - previous.size.getD 0
      revisionInfo := RevField.absent }
  if jsIncludes current.mimeType "document" then
    { details with revisionInfo := RevField.present (getRevisionDetails rf current.id) }
  else details

/-! ### JS `Map` built from `[item.id, item]` pairs -/

def mapGet : List (String × Item) → String → Option Item
  | [], _ => none
  | p :: m, k => if p.1 = k then some p.2 else mapGet m k

def mapInsert (m : List (String × Item)) (k : String) (v : Item) : List (String × Item) :=
  if (mapGet m k).isSome then m.map (fun q => if q.1 = k then (k, v) else q)
  else m ++ [(k, v)]

/-- `new Map(contents.map(item => [item.id, item]))`. -/
def mapFromItems (items : List Item) : List (String × Item) :=
  items.foldl (fun m item => mapInsert m item.id item) []

/-- The association list of a duplicate-free snapshot. -/
def pairItems : List Item → List (String × Item)
  | [] => []
  | item :: rest => (item.id, item) :: pairItems rest

/-- First item of `l` with the given id (what `mapGet` computes on
`pairItems l`). -/
def lookupId : List Item → String → Option Item
  | [], _ => none
  | it :: rest, k => if it.id = k then some it else lookupId rest k

/-! ### Change detector -/

/-- `findPossibleRename(current, lastContents)`: scan `lastContents` in
order; the first entry with exactly equal `mimeType` and `size` whose name
similarity exceeds the threshold is returned with its score.  (There is no
check that the candidate's id is missing from the current snapshot.) -/
def findPossibleRename (current : Item) : List Item → Option RenameInfo
  | [] => none
  | oldFile :: rest =>
    if current.mimeType = oldFile.mimeType ∧ current.size = oldFile.size then
      let similarity := calculateNameSimilarity current.name oldFile.name
      if simGt similarity renameThreshold then some ⟨oldFile.name, similarity⟩
      else findPossibleRename current rest
    else findPossibleRename current rest

/-- `wasRenamed(item, changes)`: some already-emitted `renamed` change
carries `oldName` equal to this item's `name`. -/
def wasRenamed (item : Item) : List Change → Bool
  | [] => false
  | Change.renamed _ oldName _ :: rest =>
    if oldName = item.name then true else wasRenamed item rest
  | Change.added _ :: rest => wasRenamed item rest
  | Change.removed _ :: rest => wasRenamed item rest
  | Change.modified _ _ :: rest => wasRenamed item rest
  | Change.moved _ _ _ :: rest => wasRenamed item rest

/-- `detectChanges(currentContents, lastContents)`.  A null/undefined
`lastContents` (`none`) short-circuits to `[]`; an empty array does not.
Phase 1 walks `currentMap` emitting `renamed`/`added` for ids missing from
`lastMap` and `modified`/`moved` for surviving ids; phase 2 walks `lastMap`
emitting `removed` for ids gone from `currentMap` unless suppressed by
`wasRenamed` against the changes accumulated so far. -/
def detectChanges (rf : String → Except String (Option (List Revision)))
    (currentContents : List Item) (lastContents? : Option (List Item)) : List Change :=
  match lastContents? with
  | none => []
  | some lastContents =>
    let currentMap := mapFromItems currentContents
    let lastMap := mapFromItems lastContents
    let changes :=
      currentMap.foldl (fun changes p =>
        changes ++
          (match mapGet lastMap p.1 with
           | none =>
             match findPossibleRename p.2 lastContents with
             | some possibleRename =>
               [Change.renamed p.2 possibleRename.name possibleRename.similarity]
             | none => [Change.added p.2]
           | some last =>
             (if p.2.modifiedTime = last.modifiedTime then []
              else [Change.modified p.2 (getModificationDetails rf p.2 last)]) ++
             (if p.2.parents.head? = last.parents.head? then []
              else [Change.moved p.2 last.parents.head? p.2.parents.head?]))) []
    lastMap.foldl (fun changes p =>
      if mapGet currentMap p.1 = none ∧ wasRenamed p.2 changes = false then
        changes ++ [Change.removed p.2]
      else changes) changes

/-! ### Specification-side reformulation of `detectChanges`

For snapshots with duplicate-free ids (the Snapshot invariant of §3) the
two `Map` folds are plain list traversals; `detectChanges_eq` below proves
the equality.  These definitions exist to be reasoned about, `detectChanges`
above is the translation of the source. -/

/-- The changes phase 1 emits for one current item. -/
def contribOf (rf : String → Except String (Option (List Revision)))
    (previous : List Item) (cur : Item) : List Change :=
  match lookupId previous cur.id with
  | none =>
    match findPossibleRename cur previous with
    | some possibleRename =>
      [Change.renamed cur possibleRename.name possibleRename.similarity]
    | none => [Change.added cur]
  | some last =>
    (if cur.modifiedTime = last.modifiedTime then []
     else [Change.modified cur (getModificationDetails rf cur last)]) ++
    (if cur.parents.head? = last.parents.head? then []
     else [Change.moved cur last.parents.head? cur.parents.head?])

/-- Phase 1 over a duplicate-free current snapshot. -/
def currentPhase (rf : String → Except String (Option (List Revision)))
    (previous : List Item) : List Item → List Change
  | [] => []
  | cur :: rest => contribOf rf previous cur ++ currentPhase rf previous rest

/-- Phase 2 (removals) over a duplicate-free previous snapshot, suppression
tested against the phase-1 changes. -/
def removedPhase (current : List Item) (phase1 : List Change) : List Item → List Change
  | [] => []
  | last :: rest =>
    if lookupId current last.id = none ∧ wasRenamed last phase1 = false then
      Change.removed last :: removedPhase current phase1 rest
    else removedPhase current phase1 rest

/-- A previous item qualifies as rename source for `cur`: equal `mimeType`,
equal `size`, similarity above the threshold. -/
def qualifiesRename (current oldFile : Item) : Prop :=
  current.mimeType = oldFile.mimeType ∧ current.size = oldFile.size ∧
    simGt (calculateNameSimilarity current.name oldFile.name) renameThreshold = true

instance (current oldFile : Item) : Decidable (qualifiesRename current oldFile) := by
  unfold qualifiesRename; infer_instance

/-- Boolean test used to collect the changes whose subject has a given id. -/
def subjectIs (i : String) (c : Change) : Bool := decide ((changeItem c).id = i)

/-! ### Concrete fixtures used by witnesses and counterexamples -/

/-- A revision-listing capability whose every call throws. -/
def revFetchErr : String → Except String (Option (List Revision)) := fun _ => Except.error "boom"

def itemNew : Item := ⟨"2", "reportb", "text/plain", "T1", some 5, ["root"]⟩

def itemOld : Item := ⟨"1", "reporta", "text/plain", "T1", some 5, ["root"]⟩

/-- Present in both snapshots (id "1") — a persisting item. -/
def itemKept : Item := ⟨"1", "report", "text/plain", "T1", some 10, ["root"]⟩

/-- Appears only in current (id "2"), same name/type/size as `itemKept`. -/
def itemTwin : Item := ⟨"2", "report", "text/plain", "T1", some 10, ["root"]⟩

def itemNewDoc : Item := ⟨"3", "doc", "text/plain", "T1", some 10, ["root"]⟩

def itemGhost1 : Item := ⟨"1", "doc", "text/plain", "T1", some 10, ["root"]⟩

def itemGhost2 : Item := ⟨"2", "doc", "text/plain", "T1", some 10, ["root"]⟩

def cur8 : Item := ⟨"9", "abcdef", "text/plain", "T1", some 3, ["root"]⟩

/-- Earlier candidate, similarity 5/6. -/
def p8low : Item := ⟨"7", "abcdeg", "text/plain", "T1", some 3, ["root"]⟩

/-- Later candidate, similarity 1. -/
def p8high : Item := ⟨"8", "abcdef", "text/plain", "T1", some 3, ["root"]⟩

def docNew : Item := ⟨"d1", "Doc", "application/vnd.google-apps.document", "T2", some 20, ["root"]⟩

def docOld : Item := ⟨"d1", "Doc", "application/vnd.google-apps.document", "T1", some 5, ["root"]⟩

def renNew : Item := ⟨"5", "newname", "text/plain", "T1", some 10, ["root"]⟩

def renOld : Item := ⟨"5", "oldname", "text/plain", "T1", some 10, ["root"]⟩

/-! ## Theorems -/

/-! ### Values of the kernel-evaluable rationals -/

theorem ratOfFrac_eq (n d : Nat) : ratOfFrac n d = (n : ℚ) / d := by
  by_cases hd : d = 0
  · subst hd; simp [ratOfFrac]
  · have hg : 0 < Nat.gcd n d := Nat.pos_of_ne_zero (Nat.gcd_ne_zero_right hd)
    have hgn : Nat.gcd n d ∣ n := Nat.gcd_dvd_left n d
    have hgd : Nat.gcd n d ∣ d := Nat.gcd_dvd_right n d
    have hgq : ((Nat.gcd n d : ℚ)) ≠ 0 := by positivity
    have hdq : ((d : ℚ)) ≠ 0 := by exact_mod_cast hd
    rw [ratOfFrac, dif_neg hd, Rat.mk'_eq_divInt, Rat.divInt_eq_div, myGcd_eq]
    push_cast [Nat.cast_div hgn hgq, Nat.cast_div hgd hgq]
    field_simp

theorem renameThreshold_eq : renameThreshold = (0.8 : ℚ) := by
  rw [renameThreshold, ratOfFrac_eq]; norm_num

/-! ### The LCS count is bounded by each input's length -/

theorem lcsF_le_left : ∀ (fuel : Nat) (l1 l2 : List Char), lcsF fuel l1 l2 ≤ l1.length := by
  intro fuel
  induction fuel with
  | zero => intro l1 l2; simp [lcsF]
  | succ n ih =>
    intro l1 l2
    cases l1 with
    | nil => simp [lcsF]
    | cons a as =>
      cases l2 with
      | nil => simp [lcsF]
      | cons b bs =>
        rw [lcsF]
        split
        · have := ih as bs
          simp only [List.length_cons]
          omega
        · have h1 := ih as (b :: bs)
          have h2 := ih (a :: as) bs
          simp only [List.length_cons] at *
          omega

theorem lcsLength_le_left (l1 l2 : List Char) : lcsLength l1 l2 ≤ l1.length :=
  lcsF_le_left _ l1 l2

/-! ### Association-list / `Map` bridging -/

theorem mapGet_pairItems : ∀ (l : List Item) (k : String),
    mapGet (pairItems l) k = lookupId l k := by
  intro l
  induction l with
  | nil => intro k; rfl
  | cons it rest ih => intro k; simp only [pairItems, mapGet, lookupId, ih]

theorem mapGet_append_none : ∀ (m m' : List (String × Item)) (k : String),
    mapGet m k = none → mapGet (m ++ m') k = mapGet m' k := by
  intro m
  induction m with
  | nil => intro m' k _; rfl
  | cons p rest ih =>
    intro m' k h
    rw [mapGet] at h
    by_cases hk : p.1 = k
    · rw [if_pos hk] at h; cases h
    · rw [if_neg hk] at h
      rw [List.cons_append, mapGet, if_neg hk]
      exact ih m' k h

theorem mapFromItems_go : ∀ (l : List Item) (m : List (String × Item)),
    (∀ it ∈ l, mapGet m it.id = none) → (l.map Item.id).Nodup →
    l.foldl (fun m item => mapInsert m item.id item) m = m ++ pairItems l := by
  intro l
  induction l with
  | nil => intro m _ _; simp [pairItems]
  | cons hd tl ih =>
    intro m hnone hnodup
    rw [List.map_cons, List.nodup_cons] at hnodup
    have h0 : mapGet m hd.id = none := hnone hd (List.mem_cons_self hd tl)
    have hstep : mapInsert m hd.id hd = m ++ [(hd.id, hd)] := by
      rw [mapInsert, h0]; simp
    rw [List.foldl_cons, hstep,
      ih (m ++ [(hd.id, hd)])
        (by
          intro it hit
          have hne : hd.id ≠ it.id := by
            intro he
            exact hnodup.1 (he ▸ List.mem_map.mpr ⟨it, hit, rfl⟩)
          rw [mapGet_append_none _ _ _ (hnone it (List.mem_cons_of_mem hd hit))]
          simp [mapGet, hne])
        hnodup.2]
    simp [pairItems]

theorem mapFromItems_eq_pairItems (l : List Item) (h : (l.map Item.id).Nodup) :
    mapFromItems l = pairItems l := by
  have := mapFromItems_go l [] (by intro it _; rfl) h
  simpa [mapFromItems] using this

/-! ### `lookupId` on duplicate-free snapshots -/

theorem lookupId_eq_none : ∀ (l : List Item) (k : String),
    (∀ it ∈ l, it.id ≠ k) → lookupId l k = none := by
  intro l
  induction l with
  | nil => intro k _; rfl
  | cons it rest ih =>
    intro k h
    rw [lookupId, if_neg (h it (List.mem_cons_self it rest))]
    exact ih k (fun x hx => h x (List.mem_cons_of_mem it hx))

theorem lookupId_of_nodup : ∀ (l : List Item), ((l.map Item.id).Nodup) →
    ∀ (it : Item), it ∈ l → lookupId l it.id = some it := by
  intro l
  induction l with
  | nil => intro _ it h; cases h
  | cons hd rest ih =>
    intro hnodup it hmem
    rw [List.map_cons, List.nodup_cons] at hnodup
    rcases List.mem_cons.mp hmem with rfl | hmem'
    · rw [lookupId, if_pos rfl]
    · have hne : hd.id ≠ it.id := by
        intro he
        exact hnodup.1 (he ▸ List.mem_map.mpr ⟨it, hmem', rfl⟩)
      rw [lookupId, if_neg hne]
      exact ih hnodup.2 it hmem'

theorem lookupId_ne_none_of_mem : ∀ (l : List Item) (it : Item), it ∈ l →
    lookupId l it.id ≠ none := by
  intro l
  induction l with
  | nil => intro it h; cases h
  | cons hd rest ih =>
    intro it hmem
    rw [lookupId]
    by_cases hk : hd.id = it.id
    · rw [if_pos hk]; exact fun h => by cases h
    · rw [if_neg hk]
      rcases List.mem_cons.mp hmem with rfl | hmem'
      · exact absurd rfl hk
      · exact ih it hmem'

/-! ### `wasRenamed` -/

theorem wasRenamed_append (item : Item) : ∀ (l1 l2 : List Change),
    wasRenamed item (l1 ++ l2) = (wasRenamed item l1 || wasRenamed item l2) := by
  intro l1
  induction l1 with
  | nil => intro l2; simp [wasRenamed]
  | cons c rest ih =>
    intro l2
    cases c with
    | renamed it2 old sim =>
      by_cases h : old = item.name
      · simp [wasRenamed, h]
      · simp [wasRenamed, h, ih]
    | added it2 => simp [wasRenamed, ih]
    | removed it2 => simp [wasRenamed, ih]
    | modified it2 d => simp [wasRenamed, ih]
    | moved it2 a b => simp [wasRenamed, ih]

theorem wasRenamed_removedOnly (item : Item) : ∀ (rs : List Change),
    (∀ c ∈ rs, ∃ it, c = Change.removed it) → wasRenamed item rs = false := by
  intro rs
  induction rs with
  | nil => intro _; rfl
  | cons c rest ih =>
    intro h
    obtain ⟨it, rfl⟩ := h c (List.mem_cons_self c rest)
    rw [wasRenamed]
    exact ih (fun x hx => h x (List.mem_cons_of_mem _ hx))

theorem wasRenamed_eq_true_iff (item : Item) : ∀ (cs : List Change),
    wasRenamed item cs = true ↔ ∃ it sim, Change.renamed it item.name sim ∈ cs := by
  intro cs
  induction cs with
  | nil => simp [wasRenamed]
  | cons c rest ih =>
    cases c with
    | renamed it2 old sim2 =>
      by_cases h : old = item.name
      · subst h
        rw [wasRenamed, if_pos rfl]
        simp only [true_iff, List.mem_cons]
        exact ⟨it2, sim2, Or.inl rfl⟩
      · rw [wasRenamed, if_neg h, ih]
        constructor
        · rintro ⟨it, sim, hmem⟩
          exact ⟨it, sim, List.mem_cons_of_mem _ hmem⟩
        · rintro ⟨it, sim, hmem⟩
          rcases List.mem_cons.mp hmem with heq | hmem'
          · cases heq; exact absurd rfl h
          · exact ⟨it, sim, hmem'⟩
    | added it2 =>
      rw [wasRenamed, ih]
      constructor
      · rintro ⟨it, sim, hmem⟩; exact ⟨it, sim, List.mem_cons_of_mem _ hmem⟩
      · rintro ⟨it, sim, hmem⟩
        rcases List.mem_cons.mp hmem with heq | hmem'
        · cases heq
        · exact ⟨it, sim, hmem'⟩
    | removed it2 =>
      rw [wasRenamed, ih]
      constructor
      · rintro ⟨it, sim, hmem⟩; exact ⟨it, sim, List.mem_cons_of_mem _ hmem⟩
      · rintro ⟨it, sim, hmem⟩
        rcases List.mem_cons.mp hmem with heq | hmem'
        · cases heq
        · exact ⟨it, sim, hmem'⟩
    | modified it2 d =>
      rw [wasRenamed, ih]
      constructor
      · rintro ⟨it, sim, hmem⟩; exact ⟨it, sim, List.mem_cons_of_mem _ hmem⟩
      · rintro ⟨it, sim, hmem⟩
        rcases List.mem_cons.mp hmem with heq | hmem'
        · cases heq
        · exact ⟨it, sim, hmem'⟩
    | moved it2 a b =>
      rw [wasRenamed, ih]
      constructor
      · rintro ⟨it, sim, hmem⟩; exact ⟨it, sim, List.mem_cons_of_mem _ hmem⟩
      · rintro ⟨it, sim, hmem⟩
        rcases List.mem_cons.mp hmem with heq | hmem'
        · cases heq
        · exact ⟨it, sim, hmem'⟩

/-! ### The two `Map` folds of `detectChanges` as plain list traversals -/

theorem phase1_eq (rf : String → Except String (Option (List Revision)))
    (previous : List Item) : ∀ (cur : List Item) (acc : List Change),
    (pairItems cur).foldl (fun changes p =>
      changes ++
        (match mapGet (pairItems previous) p.1 with
         | none =>
           match findPossibleRename p.2 previous with
           | some possibleRename =>
             [Change.renamed p.2 possibleRename.name possibleRename.similarity]
           | none => [Change.added p.2]
         | some last =>
           (if p.2.modifiedTime = last.modifiedTime then []
            else [Change.modified p.2 (getModificationDetails rf p.2 last)]) ++
           (if p.2.parents.head? = last.parents.head? then []
            else [Change.moved p.2 last.parents.head? p.2.parents.head?]))) acc
      = acc ++ currentPhase rf previous cur := by
  intro cur
  induction cur with
  | nil => intro acc; simp [pairItems, currentPhase]
  | cons it rest ih =>
    intro acc
    rw [pairItems, List.foldl_cons, ih]
    have hbody :
        (match mapGet (pairItems previous) it.id with
         | none =>
           match findPossibleRename it previous with
           | some possibleRename =>
             [Change.renamed it possibleRename.name possibleRename.similarity]
           | none => [Change.added it]
         | some last =>
           (if it.modifiedTime = last.modifiedTime then []
            else [Change.modified it (getModificationDetails rf it last)]) ++
           (if it.parents.head? = last.parents.head? then []
            else [Change.moved it last.parents.head? it.parents.head?]))
        = contribOf rf previous it := by
      rw [contribOf, mapGet_pairItems]
    simp only [currentPhase, hbody, List.append_assoc]

theorem phase2_eq (current : List Item) : ∀ (prev : List Item) (phase1 rs : List Change),
    (∀ c ∈ rs, ∃ it, c = Change.removed it) →
    (pairItems prev).foldl (fun changes p =>
        if mapGet (pairItems current) p.1 = none ∧ wasRenamed p.2 changes = false then
          changes ++ [Change.removed p.2]
        else changes) (phase1 ++ rs)
      = phase1 ++ rs ++ removedPhase current phase1 prev := by
  intro prev
  induction prev with
  | nil => intro phase1 rs _; simp [pairItems, removedPhase]
  | cons last rest ih =>
    intro phase1 rs hrs
    rw [pairItems, List.foldl_cons]
    have hwr : wasRenamed last (phase1 ++ rs) = wasRenamed last phase1 := by
      rw [wasRenamed_append, wasRenamed_removedOnly last rs hrs, Bool.or_false]
    have heq : mapGet (pairItems current) last.id = lookupId current last.id :=
      mapGet_pairItems current last.id
    simp only [heq, hwr]
    by_cases hcond : lookupId current last.id = none ∧ wasRenamed last phase1 = false
    · rw [if_pos hcond]
      have hstep : phase1 ++ rs ++ [Change.removed last] =
          phase1 ++ (rs ++ [Change.removed last]) := by
        rw [List.append_assoc]
      rw [hstep, ih phase1 (rs ++ [Change.removed last]) ?hrs2]
      case hrs2 =>
        intro c hc
        rcases List.mem_append.mp hc with h | h
        · exact hrs c h
        · rcases List.mem_singleton.mp h with rfl
          exact ⟨last, rfl⟩
      rw [removedPhase, if_pos hcond]
      simp [List.append_assoc]
    · rw [if_neg hcond, ih phase1 rs hrs, removedPhase, if_neg hcond]

theorem detectChanges_eq (rf : String → Except String (Option (List Revision)))
    (current previous : List Item)
    (hc : (current.map Item.id).Nodup) (hp : (previous.map Item.id).Nodup) :
    detectChanges rf current (some previous) =
      currentPhase rf previous current ++
        removedPhase current (currentPhase rf previous current) previous := by
  have hcm : mapFromItems current = pairItems current := mapFromItems_eq_pairItems current hc
  have hpm : mapFromItems previous = pairItems previous := mapFromItems_eq_pairItems previous hp
  simp only [detectChanges, hcm, hpm]
  rw [phase1_eq rf previous current [], List.nil_append]
  have h2 := phase2_eq current previous (currentPhase rf previous current) []
    (by intro c hc'; cases hc')
  simpa using h2

/-! ### Shape of the phase-1 contributions -/

theorem changeItem_of_mem_contribOf {rf : String → Except String (Option (List Revision))}
    {previous : List Item} {cur : Item} {c : Change}
    (h : c ∈ contribOf rf previous cur) : changeItem c = cur := by
  unfold contribOf at h
  cases hl : lookupId previous cur.id with
  | none =>
    rw [hl] at h
    cases hf : findPossibleRename cur previous with
    | some r =>
      rw [hf] at h
      rcases List.mem_singleton.mp h with rfl
      rfl
    | none =>
      rw [hf] at h
      rcases List.mem_singleton.mp h with rfl
      rfl
  | some last =>
    rw [hl] at h
    rcases List.mem_append.mp h with h' | h'
    · split at h'
      · cases h'
      · rcases List.mem_singleton.mp h' with rfl; rfl
    · split at h'
      · cases h'
      · rcases List.mem_singleton.mp h' with rfl; rfl

theorem not_removed_mem_contribOf {rf : String → Except String (Option (List Revision))}
    {previous : List Item} {cur x : Item} :
    Change.removed x ∉ contribOf rf previous cur := by
  intro h
  unfold contribOf at h
  cases hl : lookupId previous cur.id with
  | none =>
    rw [hl] at h
    cases hf : findPossibleRename cur previous with
    | some r => rw [hf] at h; cases List.mem_singleton.mp h
    | none => rw [hf] at h; cases List.mem_singleton.mp h
  | some last =>
    rw [hl] at h
    rcases List.mem_append.mp h with h' | h'
    · split at h'
      · cases h'
      · cases List.mem_singleton.mp h'
    · split at h'
      · cases h'
      · cases List.mem_singleton.mp h'

theorem mem_currentPhase_iff {rf : String → Except String (Option (List Revision))}
    {previous : List Item} {c : Change} : ∀ {l : List Item},
    c ∈ currentPhase rf previous l ↔ ∃ it ∈ l, c ∈ contribOf rf previous it := by
  intro l
  induction l with
  | nil => simp [currentPhase]
  | cons it rest ih =>
    rw [currentPhase, List.mem_append, ih]
    constructor
    · rintro (h | ⟨x, hx, hc⟩)
      · exact ⟨it, List.mem_cons_self it rest, h⟩
      · exact ⟨x, List.mem_cons_of_mem it hx, hc⟩
    · rintro ⟨x, hx, hc⟩
      rcases List.mem_cons.mp hx with rfl | hx'
      · exact Or.inl hc
      · exact Or.inr ⟨x, hx', hc⟩

theorem mem_currentPhase_of {rf : String → Except String (Option (List Revision))}
    {previous : List Item} {c : Change} {it : Item} {l : List Item}
    (hit : it ∈ l) (hc : c ∈ contribOf rf previous it) :
    c ∈ currentPhase rf previous l :=
  mem_currentPhase_iff.mpr ⟨it, hit, hc⟩

theorem mem_removedPhase_iff {current : List Item} {phase1 : List Change} {c : Change} :
    ∀ {l : List Item},
    c ∈ removedPhase current phase1 l ↔
      ∃ last ∈ l, c = Change.removed last ∧
        lookupId current last.id = none ∧ wasRenamed last phase1 = false := by
  intro l
  induction l with
  | nil => simp [removedPhase]
  | cons last rest ih =>
    by_cases hcond : lookupId current last.id = none ∧ wasRenamed last phase1 = false
    · rw [removedPhase, if_pos hcond, List.mem_cons, ih]
      constructor
      · rintro (rfl | ⟨x, hx, rfl, hc⟩)
        · exact ⟨last, List.mem_cons_self last rest, rfl, hcond⟩
        · exact ⟨x, List.mem_cons_of_mem last hx, rfl, hc⟩
      · rintro ⟨x, hx, rfl, hc⟩
        rcases List.mem_cons.mp hx with rfl | hx'
        · exact Or.inl rfl
        · exact Or.inr ⟨x, hx', rfl, hc⟩
    · rw [removedPhase, if_neg hcond, ih]
      constructor
      · rintro ⟨x, hx, rfl, hc⟩
        exact ⟨x, List.mem_cons_of_mem last hx, rfl, hc⟩
      · rintro ⟨x, hx, rfl, hc⟩
        rcases List.mem_cons.mp hx with rfl | hx'
        · exact absurd hc hcond
        · exact ⟨x, hx', rfl, hc⟩

theorem removed_mem_removedPhase {current : List Item} {phase1 : List Change}
    {l : List Item} {last : Item} (hl : last ∈ l)
    (hnone : lookupId current last.id = none) (hwr : wasRenamed last phase1 = false) :
    Change.removed last ∈ removedPhase current phase1 l :=
  mem_removedPhase_iff.mpr ⟨last, hl, rfl, hnone, hwr⟩

/-! ### Filtering the detector output by subject id -/

theorem filter_currentPhase_nil {rf : String → Except String (Option (List Revision))}
    {previous : List Item} {l : List Item} {i : String}
    (h : ∀ it ∈ l, it.id ≠ i) :
    (currentPhase rf previous l).filter (subjectIs i) = [] := by
  rw [List.filter_eq_nil_iff]
  intro c hcmem
  obtain ⟨it, hit, hcontrib⟩ := mem_currentPhase_iff.mp hcmem
  simp [subjectIs, changeItem_of_mem_contribOf hcontrib, h it hit]

theorem filter_currentPhase_eq {rf : String → Except String (Option (List Revision))}
    {previous : List Item} : ∀ (l : List Item) (cur : Item),
    ((l.map Item.id).Nodup) → cur ∈ l →
    (currentPhase rf previous l).filter (subjectIs cur.id) =
      (contribOf rf previous cur).filter (subjectIs cur.id) := by
  intro l
  induction l with
  | nil => intro cur _ h; cases h
  | cons hd rest ih =>
    intro cur hnodup hmem
    rw [List.map_cons, List.nodup_cons] at hnodup
    rw [currentPhase, List.filter_append]
    rcases List.mem_cons.mp hmem with rfl | hmem'
    · rw [filter_currentPhase_nil (fun it hit he => hnodup.1 (List.mem_map.mpr ⟨it, hit, he⟩)),
        List.append_nil]
    · have hne : hd.id ≠ cur.id := by
        intro he
        exact hnodup.1 (he ▸ List.mem_map.mpr ⟨cur, hmem', rfl⟩)
      have hhd : (contribOf rf previous hd).filter (subjectIs cur.id) = [] := by
        rw [List.filter_eq_nil_iff]
        intro c hcc
        simp [subjectIs, changeItem_of_mem_contribOf hcc, hne]
      rw [hhd, List.nil_append]
      exact ih cur hnodup.2 hmem'

theorem filter_removedPhase_nil {current : List Item} {phase1 : List Change}
    {l : List Item} {i : String}
    (h : ∀ last ∈ l, lookupId current last.id = none → last.id ≠ i) :
    (removedPhase current phase1 l).filter (subjectIs i) = [] := by
  rw [List.filter_eq_nil_iff]
  intro c hcmem
  obtain ⟨last, hlast, rfl, hnone, _⟩ := mem_removedPhase_iff.mp hcmem
  simp [subjectIs, changeItem, h last hlast hnone]

/-! ### `findPossibleRename` -/

theorem findPossibleRename_mem {cur : Item} : ∀ {l : List Item} {r : RenameInfo},
    findPossibleRename cur l = some r →
    ∃ p ∈ l, qualifiesRename cur p ∧
      r = ⟨p.name, calculateNameSimilarity cur.name p.name⟩ := by
  intro l
  induction l with
  | nil => intro r h; cases h
  | cons old rest ih =>
    intro r h
    simp only [findPossibleRename] at h
    by_cases h1 : cur.mimeType = old.mimeType ∧ cur.size = old.size
    · rw [if_pos h1] at h
      by_cases h2 : simGt (calculateNameSimilarity cur.name old.name) renameThreshold = true
      · rw [if_pos h2] at h
        rcases Option.some.inj h with rfl
        exact ⟨old, List.mem_cons_self old rest, ⟨h1.1, h1.2, h2⟩, rfl⟩
      · rw [if_neg h2] at h
        obtain ⟨p, hp, hq, hr⟩ := ih h
        exact ⟨p, List.mem_cons_of_mem old hp, hq, hr⟩
    · rw [if_neg h1] at h
      obtain ⟨p, hp, hq, hr⟩ := ih h
      exact ⟨p, List.mem_cons_of_mem old hp, hq, hr⟩

theorem findPossibleRename_isSome {cur : Item} : ∀ {l : List Item},
    (∃ p ∈ l, qualifiesRename cur p) → ∃ r, findPossibleRename cur l = some r := by
  intro l
  induction l with
  | nil => rintro ⟨p, hp, _⟩; cases hp
  | cons old rest ih =>
    rintro ⟨p, hp, hq⟩
    simp only [findPossibleRename]
    by_cases h1 : cur.mimeType = old.mimeType ∧ cur.size = old.size
    · rw [if_pos h1]
      by_cases h2 : simGt (calculateNameSimilarity cur.name old.name) renameThreshold = true
      · rw [if_pos h2]
        exact ⟨_, rfl⟩
      · rw [if_neg h2]
        rcases List.mem_cons.mp hp with rfl | hp'
        · exact absurd hq.2.2 h2
        · exact ih ⟨p, hp', hq⟩
    · rw [if_neg h1]
      rcases List.mem_cons.mp hp with rfl | hp'
      · exact absurd ⟨hq.1, hq.2.1⟩ h1
      · exact ih ⟨p, hp', hq⟩

theorem findPossibleRename_first {cur : Item} : ∀ (l1 : List Item) (p : Item) (l2 : List Item),
    (∀ q ∈ l1, ¬ qualifiesRename cur q) → qualifiesRename cur p →
    findPossibleRename cur (l1 ++ p :: l2) =
      some ⟨p.name, calculateNameSimilarity cur.name p.name⟩ := by
  intro l1
  induction l1 with
  | nil =>
    intro p l2 _ hq
    rw [List.nil_append]
    simp only [findPossibleRename]
    rw [if_pos ⟨hq.1, hq.2.1⟩, if_pos hq.2.2]
  | cons q rest ih =>
    intro p l2 hnot hq
    rw [List.cons_append]
    simp only [findPossibleRename]
    have hnq : ¬ qualifiesRename cur q := hnot q (List.mem_cons_self q rest)
    by_cases h1 : cur.mimeType = q.mimeType ∧ cur.size = q.size
    · rw [if_pos h1]
      have h2 : ¬ simGt (calculateNameSimilarity cur.name q.name) renameThreshold = true :=
        fun hC => hnq ⟨h1.1, h1.2, hC⟩
      rw [if_neg h2]
      exact ih p l2 (fun x hx => hnot x (List.mem_cons_of_mem q hx)) hq
    · rw [if_neg h1]
      exact ih p l2 (fun x hx => hnot x (List.mem_cons_of_mem q hx)) hq

/-! ### Auxiliary vanishing lemmas -/

theorem currentPhase_eq_nil {rf : String → Except String (Option (List Revision))}
    {previous : List Item} : ∀ {l : List Item},
    (∀ it ∈ l, contribOf rf previous it = []) → currentPhase rf previous l = [] := by
  intro l
  induction l with
  | nil => intro _; rfl
  | cons it rest ih =>
    intro h
    rw [currentPhase, h it (List.mem_cons_self it rest), List.nil_append]
    exact ih (fun x hx => h x (List.mem_cons_of_mem it hx))

theorem removedPhase_eq_nil {current : List Item} {phase1 : List Change} :
    ∀ {l : List Item}, (∀ it ∈ l, lookupId current it.id ≠ none) →
    removedPhase current phase1 l = [] := by
  intro l
  induction l with
  | nil => intro _; rfl
  | cons it rest ih =>
    intro h
    rw [removedPhase, if_neg (fun hc => h it (List.mem_cons_self it rest) hc.1)]
    exact ih (fun x hx => h x (List.mem_cons_of_mem it hx))

/-! ## Claim theorems -/

/-- Claim C6: for every snapshot `S`, `detectChanges(S, null)` returns the
empty list — with a null/absent previous snapshot (first observation) no
change of any type is reported. -/
theorem detect_null_previous (rf : String → Except String (Option (List Revision)))
    (S : List Item) : detectChanges rf S none = [] := rfl

/-- Claim C2 (counterexample): with previous the EMPTY snapshot `[]` (not
null) and current `[itemNew]`, `detectChanges` does not return `[]` — it
reports `itemNew` as added.  An empty array is truthy in JS, so the
first-observation guard `if (!lastContents) return []` does not fire. -/
theorem empty_previous_not_first_observation_cx :
    detectChanges revFetchErr [itemNew] (some []) ≠ [] ∧
    detectChanges revFetchErr [itemNew] (some []) = [Change.added itemNew] := by
  constructor
  · decide
  · decide

/-- Claim C2 (amended): the first-observation rule applies only to a
null/absent previous snapshot.  For previous = `[]` (the empty list) and
current = `[A]`, `detectChanges` returns `[added A]`, not `[]`; the caller
avoids this case by never invoking the detector on a first run. -/
theorem empty_previous_reports_added (rf : String → Except String (Option (List Revision)))
    (A : Item) : detectChanges rf [A] (some []) = [Change.added A] := rfl

/-- Claim C7: comparing a snapshot (with distinct ids) against an identical
snapshot yields no `added`, `removed`, `modified`, `moved` or `renamed`
changes: `detectChanges(S, S) = []`. -/
theorem detect_identical_snapshots (rf : String → Except String (Option (List Revision)))
    (S : List Item) (h : (S.map Item.id).Nodup) :
    detectChanges rf S (some S) = [] := by
  rw [detectChanges_eq rf S S h h]
  have h1 : currentPhase rf S S = [] := by
    apply currentPhase_eq_nil
    intro it hit
    have hself : lookupId S it.id = some it := lookupId_of_nodup S h it hit
    simp [contribOf, hself]
  rw [h1, removedPhase_eq_nil (fun it hit => lookupId_ne_none_of_mem S it hit),
    List.append_nil]

/-- Witness for C7 at a concrete snapshot. -/
theorem detect_identical_snapshots_witness :
    ([itemOld].map Item.id).Nodup ∧ detectChanges revFetchErr [itemOld] (some [itemOld]) = [] :=
  ⟨by decide, detect_identical_snapshots revFetchErr [itemOld] (by decide)⟩

/-- Claim C8: when several previous items qualify as rename sources for one
current item (equal `mimeType` and `size`, similarity above the threshold),
the one occurring earlier in the previous snapshot's iteration order is
chosen — first match wins, not the highest-scoring candidate.  (The
hypothesis that a later candidate also qualifies mirrors the claim's
"two or more qualify" premise; the conclusion does not depend on it.) -/
theorem rename_first_match_wins (cur p : Item) (l1 l2 : List Item)
    (h1 : ∀ q ∈ l1, ¬ qualifiesRename cur q) (hp : qualifiesRename cur p)
    (hmore : ∃ q ∈ l2, qualifiesRename cur q) :
    findPossibleRename cur (l1 ++ p :: l2) =
      some ⟨p.name, calculateNameSimilarity cur.name p.name⟩ :=
  findPossibleRename_first l1 p l2 h1 hp

/-- Witness for C8: `cur8`'s name scores 5/6 against the earlier candidate
`p8low` and 1 against the later candidate `p8high`; the earlier, LOWER
scoring one is returned. -/
theorem rename_first_match_wins_witness :
    qualifiesRename cur8 p8low ∧ qualifiesRename cur8 p8high ∧
    calculateNameSimilarity cur8.name p8low.name = some (ratOfFrac 5 6) ∧
    calculateNameSimilarity cur8.name p8high.name = some 1 ∧
    findPossibleRename cur8 ([] ++ p8low :: [p8high]) =
      some ⟨p8low.name, calculateNameSimilarity cur8.name p8low.name⟩ :=
  ⟨by decide, by decide, by decide, by decide,
    rename_first_match_wins cur8 p8low [] [p8high]
      (by intro q hq; cases hq) (by decide) ⟨p8high, by decide, by decide⟩⟩

/-- Claim C1: if a current item's id is absent from previous and previous
holds some item with equal `mimeType` and `size` whose name similarity
clears the threshold, then `detectChanges` emits exactly one change whose
subject is that current item — a `renamed` carrying the matched prior name
and its similarity score — hence no `added` for it; and no `removed` is
emitted for the matched previous item. -/
theorem detect_renamed_exactly_one (rf : String → Except String (Option (List Revision)))
    (current previous : List Item) (cur : Item)
    (hc : (current.map Item.id).Nodup) (hp : (previous.map Item.id).Nodup)
    (hmem : cur ∈ current) (habs : ∀ p ∈ previous, p.id ≠ cur.id)
    (hcand : ∃ p ∈ previous, qualifiesRename cur p) :
    ∃ p ∈ previous, qualifiesRename cur p ∧
      (detectChanges rf current (some previous)).filter (subjectIs cur.id) =
        [Change.renamed cur p.name (calculateNameSimilarity cur.name p.name)] ∧
      Change.removed p ∉ detectChanges rf current (some previous) := by
  have hl : lookupId previous cur.id = none := lookupId_eq_none previous cur.id habs
  obtain ⟨r, hr⟩ := findPossibleRename_isSome hcand
  obtain ⟨p, hpmem, hq, rfl⟩ := findPossibleRename_mem hr
  have hcon : contribOf rf previous cur =
      [Change.renamed cur p.name (calculateNameSimilarity cur.name p.name)] := by
    simp only [contribOf, hl, hr]
  refine ⟨p, hpmem, hq, ?_, ?_⟩
  · rw [detectChanges_eq rf current previous hc hp, List.filter_append,
      filter_currentPhase_eq current cur hc hmem, hcon,
      filter_removedPhase_nil (fun last hlast _ => habs last hlast)]
    simp [subjectIs, changeItem]
  · rw [detectChanges_eq rf current previous hc hp]
    intro hmem2
    rcases List.mem_append.mp hmem2 with hin | hin
    · obtain ⟨it, hit, hcc⟩ := mem_currentPhase_iff.mp hin
      exact not_removed_mem_contribOf hcc
    · obtain ⟨last, hlast, heq, hnone, hwr⟩ := mem_removedPhase_iff.mp hin
      injection heq with h3
      subst h3
      have hren : Change.renamed cur p.name (calculateNameSimilarity cur.name p.name) ∈
          currentPhase rf previous current :=
        mem_currentPhase_of hmem (by rw [hcon]; exact List.mem_singleton_self _)
      have hws : wasRenamed p (currentPhase rf previous current) = true :=
        (wasRenamed_eq_true_iff p _).mpr ⟨cur, _, hren⟩
      rw [hwr] at hws
      exact Bool.noConfusion hws

/-- Witness for C1: `itemNew` (id "2", name "reportb") against previous
`[itemOld]` (id "1", name "reporta", same type and size, similarity 6/7). -/
theorem detect_renamed_exactly_one_witness :
    (∃ p ∈ [itemOld], qualifiesRename itemNew p) ∧
    (∃ p ∈ [itemOld], qualifiesRename itemNew p ∧
      (detectChanges revFetchErr [itemNew] (some [itemOld])).filter (subjectIs itemNew.id) =
        [Change.renamed itemNew p.name (calculateNameSimilarity itemNew.name p.name)] ∧
      Change.removed p ∉ detectChanges revFetchErr [itemNew] (some [itemOld])) :=
  ⟨by decide,
    detect_renamed_exactly_one revFetchErr [itemNew] [itemOld] itemNew
      (by decide) (by decide) (by decide) (by decide) (by decide)⟩

/-- Claim C9: an item whose id persists across the two snapshots with equal
`modifiedTime`, `size`, `mimeType` and parent (only the `name` possibly
differing) produces no change at all whose subject is that item: no
`added`/`removed`, and — the `modifiedTime` being unchanged — no
`renamed`/`modified`/`moved` either. -/
theorem pure_rename_invisible (rf : String → Except String (Option (List Revision)))
    (current previous : List Item) (cur pv : Item)
    (hc : (current.map Item.id).Nodup) (hp : (previous.map Item.id).Nodup)
    (hmem : cur ∈ current) (hpv : pv ∈ previous) (hid : pv.id = cur.id)
    (hmt : pv.modifiedTime = cur.modifiedTime) (hsz : pv.size = cur.size)
    (hmime : pv.mimeType = cur.mimeType) (hpar : pv.parents.head? = cur.parents.head?) :
    (detectChanges rf current (some previous)).filter (subjectIs cur.id) = [] := by
  have hl : lookupId previous cur.id = some pv := by
    rw [← hid]; exact lookupId_of_nodup previous hp pv hpv
  have hcon : contribOf rf previous cur = [] := by
    simp [contribOf, hl, hmt, hpar]
  rw [detectChanges_eq rf current previous hc hp, List.filter_append,
    filter_currentPhase_eq current cur hc hmem, hcon,
    filter_removedPhase_nil
      (fun last _ hnone he =>
        lookupId_ne_none_of_mem current cur hmem (by rw [← he]; exact hnone))]
  simp

/-- Witness for C9: id "5" persists, name "oldname" → "newname", all other
fields equal; the detector emits nothing for it. -/
theorem pure_rename_invisible_witness :
    renOld.id = renNew.id ∧ renOld.name ≠ renNew.name ∧
    (detectChanges revFetchErr [renNew] (some [renOld])).filter (subjectIs renNew.id) = [] :=
  ⟨by decide, by decide,
    pure_rename_invisible revFetchErr [renNew] [renOld] renNew renOld
      (by decide) (by decide) (by decide) (by decide) (by decide) (by decide)
      (by decide) (by decide) (by decide)⟩

/-- Claim C10: removal suppression is keyed on name equality alone — a
previous item whose id is absent from current is emitted as `removed` iff
no emitted `renamed` change carries an old name equal to that item's name. -/
theorem removed_suppression_by_name (rf : String → Except String (Option (List Revision)))
    (current previous : List Item) (pv : Item)
    (hc : (current.map Item.id).Nodup) (hp : (previous.map Item.id).Nodup)
    (hpv : pv ∈ previous) (habs : ∀ c ∈ current, c.id ≠ pv.id) :
    Change.removed pv ∈ detectChanges rf current (some previous) ↔
      ∀ it old sim, Change.renamed it old sim ∈ detectChanges rf current (some previous) →
        old ≠ pv.name := by
  rw [detectChanges_eq rf current previous hc hp]
  constructor
  · intro h it old sim hrmem he
    subst he
    rcases List.mem_append.mp h with hin | hin
    · obtain ⟨x, hx, hcc⟩ := mem_currentPhase_iff.mp hin
      exact not_removed_mem_contribOf hcc
    · obtain ⟨last, hlast, heq, hnone, hwr⟩ := mem_removedPhase_iff.mp hin
      injection heq with h3
      subst h3
      rcases List.mem_append.mp hrmem with hr1 | hr2
      · have hws : wasRenamed pv (currentPhase rf previous current) = true :=
          (wasRenamed_eq_true_iff pv _).mpr ⟨it, sim, hr1⟩
        rw [hwr] at hws
        exact Bool.noConfusion hws
      · obtain ⟨x, hx, heq2, _, _⟩ := mem_removedPhase_iff.mp hr2
        cases heq2
  · intro hno
    have hwr : wasRenamed pv (currentPhase rf previous current) = false := by
      cases hb : wasRenamed pv (currentPhase rf previous current)
      · rfl
      · obtain ⟨it, sim, hmem'⟩ := (wasRenamed_eq_true_iff pv _).mp hb
        exact absurd rfl (hno it pv.name sim (List.mem_append_left _ hmem'))
    exact List.mem_append_right _
      (removed_mem_removedPhase hpv (lookupId_eq_none current pv.id habs) hwr)

/-- Witness for C10: previous holds two distinct items (`itemGhost1`,
`itemGhost2`) both named "doc" and both gone from current; the single
`renamed` emitted for `itemNewDoc` carries old name "doc", so neither ghost
is reported as removed. -/
theorem removed_suppression_by_name_witness :
    Change.renamed itemNewDoc "doc" (some 1) ∈
        detectChanges revFetchErr [itemNewDoc] (some [itemGhost1, itemGhost2]) ∧
    Change.removed itemGhost1 ∉
        detectChanges revFetchErr [itemNewDoc] (some [itemGhost1, itemGhost2]) ∧
    Change.removed itemGhost2 ∉
        detectChanges revFetchErr [itemNewDoc] (some [itemGhost1, itemGhost2]) :=
  ⟨by decide,
    fun h =>
      (removed_suppression_by_name revFetchErr [itemNewDoc] [itemGhost1, itemGhost2]
            itemGhost1 (by decide) (by decide) (by decide) (by decide)).mp h
        itemNewDoc "doc" (some 1) (by decide) rfl,
    fun h =>
      (removed_suppression_by_name revFetchErr [itemNewDoc] [itemGhost1, itemGhost2]
            itemGhost2 (by decide) (by decide) (by decide) (by decide)).mp h
        itemNewDoc "doc" (some 1) (by decide) rfl⟩

/-- Claim C3 (counterexample): rename correlation does NOT restrict its
candidates to items unique to previous.  Here `itemKept` (id "1") persists
unchanged in current, yet it is matched as the rename source of the new
`itemTwin` (id "2", same name/type/size) and reported as the old side of
the `renamed` change. -/
theorem rename_source_unique_check_missing_cx :
    detectChanges revFetchErr [itemKept, itemTwin] (some [itemKept]) =
      [Change.renamed itemTwin itemKept.name (some 1)] ∧
    itemKept.id ∈ [itemKept, itemTwin].map Item.id := by
  constructor
  · decide
  · decide

/-- Claim C3 (amended): `findPossibleRename` scans every previous-snapshot
item with no uniqueness check, so a previous item whose id is still present
in current can be chosen as rename source and reported as the old side of a
`renamed` change. -/
theorem rename_source_may_persist (rf : String → Except String (Option (List Revision)))
    (current previous : List Item) (cur p : Item)
    (hc : (current.map Item.id).Nodup) (hp : (previous.map Item.id).Nodup)
    (hmem : cur ∈ current) (habs : ∀ q ∈ previous, q.id ≠ cur.id)
    (hpmem : p ∈ previous) (hpersist : ∃ c ∈ current, c.id = p.id)
    (hfirst : findPossibleRename cur previous =
      some ⟨p.name, calculateNameSimilarity cur.name p.name⟩) :
    Change.renamed cur p.name (calculateNameSimilarity cur.name p.name) ∈
      detectChanges rf current (some previous) := by
  rw [detectChanges_eq rf current previous hc hp]
  apply List.mem_append_left
  apply mem_currentPhase_of hmem
  simp only [contribOf, lookupId_eq_none previous cur.id habs, hfirst]
  exact List.mem_singleton_self _

/-- Witness for the amended C3 at the counterexample's snapshots. -/
theorem rename_source_may_persist_witness :
    (∃ c ∈ [itemKept, itemTwin], c.id = itemKept.id) ∧
    Change.renamed itemTwin itemKept.name
        (calculateNameSimilarity itemTwin.name itemKept.name) ∈
      detectChanges revFetchErr [itemKept, itemTwin] (some [itemKept]) :=
  ⟨by decide,
    rename_source_may_persist revFetchErr [itemKept, itemTwin] [itemKept] itemTwin itemKept
      (by decide) (by decide) (by decide) (by decide) (by decide) (by decide) (by decide)⟩

/-- Claim C4 (counterexample): on two names that are both empty after
extension stripping the scorer does not return 0 — the JS code computes
`0 / 0`, i.e. `NaN` (modelled `none`), so the result is neither 0 nor a
number in [0,1]. -/
theorem similarity_nan_on_empty_cx :
    calculateNameSimilarity ".txt" ".pdf" = none ∧
    calculateNameSimilarity ".txt" ".pdf" ≠ some 0 := by
  constructor
  · decide
  · decide

/-- Claim C4 (amended): when both names strip to empty the scorer divides
zero by zero and yields `NaN` (`none`), not 0; in every other case it
yields a well-defined rational in [0,1]. -/
theorem similarity_value_spec (n1 n2 : String) :
    (stripExt n1.data = [] ∧ stripExt n2.data = [] → calculateNameSimilarity n1 n2 = none) ∧
    ((stripExt n1.data ≠ [] ∨ stripExt n2.data ≠ []) →
      ∃ q : ℚ, calculateNameSimilarity n1 n2 = some q ∧ 0 ≤ q ∧ q ≤ 1) := by
  constructor
  · rintro ⟨h1, h2⟩
    simp [calculateNameSimilarity, h1, h2]
  · intro hne
    have hden : max (stripExt n1.data).length (stripExt n2.data).length ≠ 0 := by
      rcases hne with h | h
      · have h0 := List.length_pos.mpr h
        have h1 := Nat.le_max_left (stripExt n1.data).length (stripExt n2.data).length
        omega
      · have h0 := List.length_pos.mpr h
        have h1 := Nat.le_max_right (stripExt n1.data).length (stripExt n2.data).length
        omega
    refine ⟨ratOfFrac (lcsLength (lowerList (stripExt n1.data)) (lowerList (stripExt n2.data)))
        (max (stripExt n1.data).length (stripExt n2.data).length), ?_, ?_, ?_⟩
    · simp only [calculateNameSimilarity]
      rw [if_neg hden]
    · rw [ratOfFrac_eq]
      positivity
    · rw [ratOfFrac_eq]
      have hpos : (0 : ℚ) <
          ((max (stripExt n1.data).length (stripExt n2.data).length : Nat) : ℚ) := by
        exact_mod_cast Nat.pos_of_ne_zero hden
      rw [div_le_one hpos]
      have hle : lcsLength (lowerList (stripExt n1.data)) (lowerList (stripExt n2.data)) ≤
          max (stripExt n1.data).length (stripExt n2.data).length := by
        have h1 := lcsLength_le_left (lowerList (stripExt n1.data)) (lowerList (stripExt n2.data))
        rw [lowerList, List.length_map] at h1
        exact le_trans h1 (Nat.le_max_left _ _)
      exact_mod_cast hle

/-- Witness for the amended C4: the NaN case at `".txt"`/`".pdf"` and the
well-defined case at `"a"`/`"b"`. -/
theorem similarity_value_spec_witness :
    calculateNameSimilarity ".txt" ".pdf" = none ∧
    (∃ q : ℚ, calculateNameSimilarity "a" "b" = some q ∧ 0 ≤ q ∧ q ≤ 1) :=
  ⟨(similarity_value_spec ".txt" ".pdf").1 (by decide),
    (similarity_value_spec "a" "b").2 (Or.inl (by decide))⟩

/-- Claim C5 (counterexample): when the revision fetch fails for a
rich-document item, the details structure does not omit the revision field
— `getRevisionDetails` catches the error and returns `null`, which is then
assigned, so the field is present holding `null`. -/
theorem revision_field_not_omitted_cx :
    (getModificationDetails revFetchErr docNew docOld).revisionInfo = RevField.present none ∧
    (getModificationDetails revFetchErr docNew docOld).revisionInfo ≠ RevField.absent := by
  constructor
  · decide
  · decide

/-- Claim C5 (amended): a failing revision fetch during modification
classification is never propagated — the `modified` change is still emitted
with all time/size fields — but the details structure carries the revision
field set to `null` (`present none`) rather than omitting it. -/
theorem modified_fetch_failure_nonfatal (rf : String → Except String (Option (List Revision)))
    (current previous : List Item) (cur pv : Item) (e : String)
    (hc : (current.map Item.id).Nodup) (hp : (previous.map Item.id).Nodup)
    (hmem : cur ∈ current) (hpv : pv ∈ previous) (hid : pv.id = cur.id)
    (hmt : ¬ cur.modifiedTime = pv.modifiedTime)
    (hdoc : jsIncludes cur.mimeType "document" = true)
    (hfail : rf cur.id = Except.error e) :
    Change.modified cur
        { previousModifiedTime := pv.modifiedTime
          newModifiedTime := cur.modifiedTime
          previousSize := pv.size.getD 0
          newSize := cur.size.getD 0
          sizeDelta := cur.size.getD 0 - pv.size.getD 0
          revisionInfo := RevField.present none } ∈
      detectChanges rf current (some previous) := by
  have hl : lookupId previous cur.id = some pv := by
    rw [← hid]; exact lookupId_of_nodup previous hp pv hpv
  have hdet : getModificationDetails rf cur pv =
      { previousModifiedTime := pv.modifiedTime
        newModifiedTime := cur.modifiedTime
        previousSize := pv.size.getD 0
        newSize := cur.size.getD 0
        sizeDelta := cur.size.getD 0 - pv.size.getD 0
        revisionInfo := RevField.present none } := by
    simp [getModificationDetails, getRevisionDetails, hdoc, hfail]
  rw [detectChanges_eq rf current previous hc hp]
  apply List.mem_append_left
  apply mem_currentPhase_of hmem
  simp only [contribOf, hl]
  rw [if_neg hmt, hdet]
  exact List.mem_append_left _ (List.mem_singleton_self _)

/-- Witness for the amended C5: `docNew`/`docOld` (a Google-Docs mime type)
with every revision-listing call failing. -/
theorem modified_fetch_failure_nonfatal_witness :
    jsIncludes docNew.mimeType "document" = true ∧
    Change.modified docNew ⟨"T1", "T2", 5, 20, 15, RevField.present none⟩ ∈
      detectChanges revFetchErr [docNew] (some [docOld]) :=
  ⟨by decide,
    modified_fetch_failure_nonfatal revFetchErr [docNew] [docOld] docNew docOld "boom"
      (by decide) (by decide) (by decide) (by decide) (by decide) (by decide)
      (by decide) rfl⟩
